import Mathlib

/-!
Verification of the squidwarden admin UI core (cmd/ui/ui.go): domain
canonicalization, log-line parsing, the log tail pipeline, and the policy
store handlers, shallowly embedded over lists of rows.  Strings are handled
at the character-list level; each definition mirrors the corresponding Go
function.
-/

namespace Squidwarden

/-- Whitespace class of Go regexp, matched by the character class used in
the log-line pattern: space, tab, newline, form feed, carriage return. -/
def goSpace (c : Char) : Bool :=
  c = ' ' || c = '\t' || c = '\n' || c = '\r' || c = Char.ofNat 12

/-- Word character class of Go regexp: ASCII letters, digits, underscore. -/
def goWord (c : Char) : Bool :=
  c.isAlpha || c.isDigit || c = '_'

/-- Characters matched by the epoch-field class of the log pattern. -/
def dotDigit (c : Char) : Bool :=
  c.isDigit || c = '.'

/-- Split a character list on every occurrence of a separator character,
like strings.Split does; the result is always non-empty. -/
def splitOnChar (c : Char) : List Char → List (List Char)
  | [] => [[]]
  | a :: rest =>
    let r := splitOnChar c rest
    if a = c then [] :: r
    else
      match r with
      | h :: t => (a :: h) :: t
      | [] => [[a]]

theorem splitOnChar_ne_nil (c : Char) (l : List Char) : splitOnChar c l ≠ [] := by
  cases l with
  | nil => simp [splitOnChar]
  | cons a rest =>
    simp only [splitOnChar]
    split
    · simp
    · split
      · simp
      · simp

theorem splitOnChar_cons_ne (c a : Char) (t : List Char) (h : a ≠ c) :
    ∃ g r, splitOnChar c (a :: t) = (a :: g) :: r := by
  simp only [splitOnChar]
  rw [if_neg h]
  rcases he : splitOnChar c t with _ | ⟨g, r⟩
  · exact absurd he (splitOnChar_ne_nil c t)
  · exact ⟨g, r, rfl⟩

/-- Numeric value of a digit list (most significant first). -/
def natOfDigits : List Char → Nat
  | [] => 0
  | d :: rest => natOfDigits rest + d.toNat.sub 48 * 10 ^ rest.length

/-- One dotted-decimal field of an IPv4 literal, as accepted by Go's
net.ParseIP: 1 to 3 digits, value at most 255, no leading zero. -/
def v4FieldOk (f : List Char) : Bool :=
  decide (0 < f.length) && decide (f.length ≤ 3) && f.all Char.isDigit &&
    decide (natOfDigits f ≤ 255) && (decide (f.length = 1) || !(f.head? = some '0'))

/-- Recognizer for IPv4 dotted-quad literals (net.ParseIP, v4 branch). -/
def ipv4Chars (l : List Char) : Bool :=
  let fs := splitOnChar '.' l
  decide (fs.length = 4) && fs.all v4FieldOk

/-- Hexadecimal digit. -/
def hexDigit (c : Char) : Bool :=
  c.isDigit || ('a' ≤ c && c ≤ 'f') || ('A' ≤ c && c ≤ 'F')

/-- One 16-bit group of an IPv6 literal: 1 to 4 hex digits. -/
def hexGroupOk (g : List Char) : Bool :=
  decide (0 < g.length) && decide (g.length ≤ 4) && g.all hexDigit

/-- Whether a character list contains a double colon. -/
def hasDC : List Char → Bool
  | [] => false
  | [_] => false
  | a :: b :: rest => (a = ':' && b = ':') || hasDC (b :: rest)

/-- Split at the first double colon (callers ensure one is present). -/
def splitDC : List Char → List Char × List Char
  | [] => ([], [])
  | [c] => ([c], [])
  | a :: b :: rest =>
    if a = ':' && b = ':' then ([], rest)
    else
      let p := splitDC (b :: rest)
      (a :: p.1, p.2)

/-- Count the 16-bit groups of a colon-separated fragment where every part
must be a hex group. -/
def hexGroupsCount : List (List Char) → Option Nat
  | [] => some 0
  | g :: rest =>
    if hexGroupOk g then (hexGroupsCount rest).map (· + 1) else none

/-- Count the 16-bit groups of a colon-separated fragment whose final part
may be an embedded IPv4 quad (worth two groups). -/
def groupsCount : List (List Char) → Option Nat
  | [] => some 0
  | [g] => if hexGroupOk g then some 1 else if ipv4Chars g then some 2 else none
  | g :: rest =>
    if hexGroupOk g then (groupsCount rest).map (· + 1) else none

/-- Colon-separated parts of a possibly-empty fragment. -/
def partsOf (l : List Char) : List (List Char) :=
  match l with
  | [] => []
  | _ => splitOnChar ':' l

/-- Recognizer for IPv6 literals (net.ParseIP, v6 branch): either eight
groups, or a single double colon standing for at least one zero group. -/
def ipv6Chars (l : List Char) : Bool :=
  if hasDC l then
    let p := splitDC l
    !(hasDC p.2) &&
      (match hexGroupsCount (partsOf p.1), groupsCount (partsOf p.2) with
       | some a, some b => decide (a + b ≤ 7)
       | _, _ => false)
  else
    match groupsCount (splitOnChar ':' l) with
    | some n => decide (n = 8) && l.contains ':'
    | none => false

/-- Model of net.ParseIP used only through its success/failure: whether the
string is an IPv4 or IPv6 literal. -/
def isIPChars (l : List Char) : Bool :=
  ipv4Chars l || ipv6Chars l

/-- Break a character list at the first occurrence of a character,
returning the pieces before and after it, or none if it is absent. -/
def breakAt (c : Char) : List Char → Option (List Char × List Char)
  | [] => none
  | a :: rest =>
    if a = c then some ([], rest)
    else (breakAt c rest).map (fun p => (a :: p.1, p.2))

/-- Model of net.SplitHostPort.  A bracketed form needs the closing
bracket immediately followed by the colon and a port free of colons and
brackets; an unbracketed form needs exactly one colon and no brackets. -/
def shpChars (l : List Char) : Option (List Char × List Char) :=
  if l.head? = some '[' then
    match breakAt ']' (l.drop 1) with
    | none => none
    | some (h, tail) =>
      match tail with
      | ':' :: p =>
        if p.contains ':' || p.contains ']' || h.contains '[' || p.contains '[' then none
        else some (h, p)
      | _ => none
  else
    if l.contains '[' || l.contains ']' then none
    else
      match splitOnChar ':' l with
      | [h, p] => some (h, p)
      | _ => none

/-- The public-suffix table known to the model, standing in for the
embedded list of golang.org/x/net/publicsuffix. -/
def pslSuffixes : List (List Char) :=
  ["com".data, "net".data, "org".data, "io".data, "de".data, "jp".data,
   "co.jp".data, "uk".data, "co.uk".data, "ac.uk".data, "gov.uk".data]

/-- Join label fragments with dots. -/
def joinChars : List (List Char) → List Char
  | [] => []
  | [g] => g
  | g :: rest => g ++ '.' :: joinChars rest

/-- Length in labels of the public suffix of a label list: the longest
suffix run found in the table, with the final label as the default rule. -/
def bestK (ls : List (List Char)) : Nat :=
  (List.range ls.length).foldl
    (fun acc i =>
      if pslSuffixes.contains (joinChars (ls.drop (ls.length - (i + 1)))) then i + 1 else acc)
    1

/-- Whether the list has two adjacent dots. -/
def hasDD : List Char → Bool
  | [] => false
  | [_] => false
  | a :: b :: rest => (a = '.' && b = '.') || hasDD (b :: rest)

/-- Model of publicsuffix.EffectiveTLDPlusOne: reject empty labels, then
return the public suffix plus one extra label, failing when the domain is
no longer than its public suffix. -/
def etldChars (l : List Char) : Option (List Char) :=
  if l.head? = some '.' || l.getLast? = some '.' || hasDD l then none
  else
    let ls := splitOnChar '.' l
    let k := bestK ls
    if ls.length ≤ k then none
    else some (joinChars (ls.drop (ls.length - (k + 1))))

/-- The third branch of host2domain: registrable domain with a leading
dot, or the input unchanged when the reduction fails. -/
def suffixReduce (h : List Char) : List Char :=
  match etldChars h with
  | some r => '.' :: r
  | none => h

/-- host2domain from ui.go, at the character level: IP literals are
returned unchanged, a host:port whose host is an IP literal loses the
port, and anything else is reduced to its registrable domain with a
leading dot, falling back to the input itself. -/
def host2domainChars (h : List Char) : List Char :=
  if isIPChars h then h
  else
    match shpChars h with
    | some (hst, _) => if isIPChars hst then hst else suffixReduce h
    | none => suffixReduce h

/-- host2domain from ui.go. -/
def host2domain (h : String) : String :=
  String.mk (host2domainChars h.data)

/-- The capture groups of the log-line pattern of parseLogEntry:
epoch time, client, result code, method, target, content type. -/
structure Caps where
  time : List Char
  client : List Char
  code : List Char
  method : List Char
  target : List Char
  ctype : List Char
deriving DecidableEq

/-- Greedy run of a character class: the maximal matching prefix and the
rest.  In the log pattern every quantified class is disjoint from its
neighbour, so the greedy run is the unique possible match. -/
def munch (p : Char → Bool) (l : List Char) : List Char × List Char :=
  (l.takeWhile p, l.dropWhile p)

/-- Attempt the log-line pattern anchored at the head of the list:
epoch, gap, digits, gap, client, gap, code, gap, digits, gap, word
method, gap, target, gap, dash, space, peer, space, content type. -/
def tryAt (l : List Char) : Option Caps :=
  let (t1, r) := munch dotDigit l
  if t1 = [] then none else
  let (s1, r) := munch goSpace r
  if s1 = [] then none else
  let (d1, r) := munch Char.isDigit r
  if d1 = [] then none else
  let (s2, r) := munch goSpace r
  if s2 = [] then none else
  let (c2, r) := munch (fun c => !(goSpace c)) r
  if c2 = [] then none else
  let (s3, r) := munch goSpace r
  if s3 = [] then none else
  let (c3, r) := munch (fun c => !(goSpace c)) r
  if c3 = [] then none else
  let (s4, r) := munch goSpace r
  if s4 = [] then none else
  let (d2, r) := munch Char.isDigit r
  if d2 = [] then none else
  let (s5, r) := munch goSpace r
  if s5 = [] then none else
  let (c4, r) := munch goWord r
  if c4 = [] then none else
  let (s6, r) := munch goSpace r
  if s6 = [] then none else
  let (c5, r) := munch (fun c => !(goSpace c)) r
  if c5 = [] then none else
  let (s7, r) := munch goSpace r
  if s7 = [] then none else
  match r with
  | '-' :: sp1 :: r =>
    if goSpace sp1 then
      let (peer, r) := munch (fun c => !(goSpace c)) r
      if peer = [] then none else
      match r with
      | sp2 :: r =>
        if goSpace sp2 then
          let (c6, _) := munch (fun c => !(goSpace c)) r
          if c6 = [] then none else some ⟨t1, c2, c3, c4, c5, c6⟩
        else none
      | [] => none
    else none
  | _ => none

/-- Unanchored leftmost search of the log-line pattern, as
regexp.FindStringSubmatch performs it. -/
def findMatch : List Char → Option Caps
  | [] => none
  | a :: rest =>
    match tryAt (a :: rest) with
    | some c => some c
    | none => findMatch rest

/-- Model of strconv.ParseFloat on the epoch capture, kept to the whole
seconds the entry construction truncates to: characters are digits and
dots, at most one dot, at least one digit. -/
def parseEpoch (l : List Char) : Option Nat :=
  match splitOnChar '.' l with
  | [a] => if a ≠ [] && a.all Char.isDigit then some (natOfDigits a) else none
  | [a, b] =>
    if (a ++ b) ≠ [] && (a ++ b).all Char.isDigit then some (natOfDigits a) else none
  | _ => none

/-- Scheme characters of a URL: letters, digits, plus, minus, dot. -/
def schemeChar (c : Char) : Bool :=
  c.isAlpha || c.isDigit || c = '+' || c = '-' || c = '.'

/-- Split a leading scheme followed by a colon, as url.Parse recognizes
it: non-empty, starting with a letter. -/
def schemeSplit (l : List Char) : Option (List Char × List Char) :=
  let pre := l.takeWhile schemeChar
  match l.dropWhile schemeChar with
  | ':' :: tail =>
    match pre with
    | c :: _ => if c.isAlpha then some (pre, tail) else none
    | [] => none
  | _ => none

/-- Host part of an authority: everything after the last at sign. -/
def stripUser (a : List Char) : List Char :=
  ((splitOnChar '@' a).getLast?).getD a

/-- Model of url.Parse restricted to what parseLogEntry reads: the
scheme, the host (with any port), and the path.  Absence of a scheme and
parse errors both yield none, which is how the caller treats them. -/
def urlParseChars (u : List Char) : Option (List Char × List Char × List Char) :=
  match schemeSplit u with
  | none => none
  | some (sch, rest) =>
    match rest with
    | '/' :: '/' :: rest2 =>
      let auth := rest2.takeWhile (fun c => !(c = '/' || c = '?' || c = '#'))
      let tail := rest2.drop auth.length
      let path := tail.takeWhile (fun c => !(c = '?' || c = '#'))
      some (sch, stripUser auth, path)
    | '/' :: _ => some (sch, [], rest)
    | _ => some (sch, [], [])

/-- The host:port fallback of parseLogEntry: split off a port if
net.SplitHostPort accepts the target, else keep the target whole; the path
is empty either way. -/
def shpFallback (u : List Char) : List Char × List Char :=
  match shpChars u with
  | some (h, _) => (h, [])
  | none => (u, [])

/-- Host and path of the target token: a target containing a slash that
parses as an absolute URL is split into URL host and path; anything else
is treated as a bare host or host:port. -/
def hostPath (u : List Char) : List Char × List Char :=
  if u.contains '/' then
    match urlParseChars u with
    | some (_, hst, pth) => (hst, pth)
    | none => shpFallback u
  else shpFallback u

/-- A structured log entry.  The timestamp is kept as the whole epoch
seconds the Go code truncates the parsed float to; the UTC rendering of
that instant is presentation only and is not modelled. -/
structure LogEntry where
  Time : Nat
  Client : String
  Method : String
  Domain : String
  Host : String
  Path : String
  URL : String
deriving DecidableEq

/-- The possible outcomes of parseLogEntry: the skip classification for
the empty line, the bad-log-line error carrying the line, the epoch-parse
error carrying the epoch token, or a structured entry. -/
inductive ParseResult where
  | skip : ParseResult
  | malformed (line : String) : ParseResult
  | epochErr (tok : String) : ParseResult
  | entry (e : LogEntry) : ParseResult
deriving DecidableEq

/-- parseLogEntry from ui.go. -/
def parseLogEntry (l : String) : ParseResult :=
  if l = "" then .skip
  else
    match findMatch l.data with
    | none => .malformed l
    | some caps =>
      match parseEpoch caps.time with
      | none => .epochErr (String.mk caps.time)
      | some ts =>
        .entry
          ⟨ts, String.mk caps.client, String.mk caps.method,
            String.mk (host2domainChars (hostPath caps.target).1),
            String.mk (hostPath caps.target).1,
            String.mk (hostPath caps.target).2,
            String.mk caps.target⟩

/-- The swapping loop of reverse from ui.go: assigns the pair of cells at
i and the mirror position while i is strictly below j, stepping i up and
j down. -/
def revLoop (s : Array String) (o : Array String) (i : Nat) : Nat → Array String
  | 0 => o
  | j + 1 =>
    if i < j + 1 then
      revLoop s ((o.setD i (s.getD (j + 1) "")).setD (j + 1) (s.getD i "")) (i + 1) j
    else o

/-- reverse from ui.go: allocates a same-length array of empty strings
and runs the swapping loop from both ends. -/
def reverse (s : List String) : List String :=
  (revLoop s.toArray (Array.mkArray s.length "") 0 (s.length - 1)).toList

/-- tailLogHandler from ui.go, reduced to its data transformation: split
the log text into lines, reverse, keep the first 30, and collect the
lines that parse as entries, dropping skips and malformed lines. -/
def tailLog (text : String) : List LogEntry :=
  let lines := (reverse ((splitOnChar '\n' text.data).map String.mk)).take 30
  lines.foldl
    (fun acc l =>
      match parseLogEntry l with
      | .entry e => acc ++ [e]
      | _ => acc)
    []

/-- The persistent relations of the policy store, one list of rows per
table, in table order. -/
structure DB where
  sources : List (String × String × String)
  groups : List (String × String)
  members : List (String × String × String)
  acls : List (String × String)
  rules : List (String × String × String × String × String)
  aclrules : List (String × String)
  groupaccess : List (String × String × String)
deriving DecidableEq

/-- The reUUID pattern of ui.go: five lowercase-hex groups of lengths
8, 4, 4, 4 and 12 joined by dashes. -/
def lowerHex (c : Char) : Bool :=
  c.isDigit || ('a' ≤ c && c ≤ 'f')

/-- Whether a string matches reUUID. -/
def isUUID (s : String) : Bool :=
  match splitOnChar '-' s.data with
  | [a, b, c, d, e] =>
    decide (a.length = 8) && decide (b.length = 4) && decide (c.length = 4) &&
      decide (d.length = 4) && decide (e.length = 12) &&
      (a ++ b ++ c ++ d ++ e).all lowerHex
  | _ => false

/-- How one handler call ends: plain success, a validation error returned
to the client, a panic, a rolled-back database failure, or an
integrity-blocked delete reporting the count of blocking rows. -/
inductive Outcome where
  | ok : Outcome
  | invalid : Outcome
  | panicked : Outcome
  | dbfail : Outcome
  | blocked (n : Nat) : Outcome
deriving DecidableEq

/-- Result of a handler call: the outcome, the database state visible
afterwards (rolled back to the prior state on any failure), and the
statements issued to the database, in order. -/
structure HOut where
  res : Outcome
  db : DB
  trace : List String
deriving DecidableEq

def delMembersQ : String := "DELETE members"
def insMembersQ : String := "INSERT members"
def delAccessQ : String := "DELETE groupaccess"
def insAccessQ : String := "INSERT groupaccess"
def updRulesQ : String := "UPDATE rules"
def updAclrulesQ : String := "UPDATE aclrules"
def delAclrulesQ : String := "DELETE aclrules"
def delRulesQ : String := "DELETE rules"
def delSourcesQ : String := "DELETE sources"
def countMembersQ : String := "SELECT count members"
def delAclsQ : String := "DELETE acls"
def countAclrulesQ : String := "SELECT count aclrules"

/-- A fault schedule that never fails a statement. -/
def noFaults : Nat → Bool := fun _ => false

/-- How the insert loop of a replace-all transaction ends. -/
inductive TxStep where
  | committed (db : DB) : TxStep
  | txfail : TxStep
  | txpanic : TxStep
deriving DecidableEq

/-- The insert loop of membersmembersHandler: one INSERT INTO members per
source ID, reading the comment at the same index and panicking when the
comment list is exhausted, as the unchecked indexing does.  The fault
schedule decides which statements the database rejects. -/
def memLoop (gid : String) :
    List String → List String → Nat → (Nat → Bool) → DB → TxStep × List String
  | [], _, _, _, db => (.committed db, [])
  | _ :: _, [], _, _, _ => (.txpanic, [])
  | s :: srest, c :: crest, n, faults, db =>
    if faults n then (.txfail, [insMembersQ])
    else
      let r :=
        memLoop gid srest crest (n + 1) faults
          { db with members := db.members ++ [(gid, s, c)] }
      (r.1, insMembersQ :: r.2)

/-- membersmembersHandler from ui.go: assert the group ID (panicking when
malformed), validate every source ID, then inside one transaction delete
the group's member rows and insert the submitted pairs; any failure or
panic rolls the transaction back. -/
def membersmembers (gid : String) (srcs comms : List String) (faults : Nat → Bool)
    (db : DB) : HOut :=
  if !(isUUID gid) then ⟨.panicked, db, []⟩
  else if srcs.any (fun s => !(isUUID s)) then ⟨.invalid, db, []⟩
  else if faults 0 then ⟨.dbfail, db, [delMembersQ]⟩
  else
    let db1 := { db with members := db.members.filter (fun r => r.1 != gid) }
    match memLoop gid srcs comms 1 faults db1 with
    | (.committed db2, tr) => ⟨.ok, db2, delMembersQ :: tr⟩
    | (.txfail, tr) => ⟨.dbfail, db, delMembersQ :: tr⟩
    | (.txpanic, tr) => ⟨.panicked, db, delMembersQ :: tr⟩

/-- The insert loop of accessUpdateHandler over groupaccess rows; it is
only entered after the length check, so it never indexes past the
comment list. -/
def gaLoop (gid : String) :
    List String → List String → Nat → (Nat → Bool) → DB → TxStep × List String
  | [], _, _, _, db => (.committed db, [])
  | _ :: _, [], _, _, _ => (.txpanic, [])
  | a :: arest, c :: crest, n, faults, db =>
    if faults n then (.txfail, [insAccessQ])
    else
      let r :=
        gaLoop gid arest crest (n + 1) faults
          { db with groupaccess := db.groupaccess ++ [(gid, a, c)] }
      (r.1, insAccessQ :: r.2)

/-- accessUpdateHandler from ui.go: the group ID comes from the route
unvalidated, every ACL ID is validated, the two list lengths must agree,
and then one transaction deletes the group's grants and inserts the
submitted ones. -/
def accessUpdate (gid : String) (aclsL comms : List String) (faults : Nat → Bool)
    (db : DB) : HOut :=
  if aclsL.any (fun a => !(isUUID a)) then ⟨.invalid, db, []⟩
  else if comms.length ≠ aclsL.length then ⟨.invalid, db, []⟩
  else if faults 0 then ⟨.dbfail, db, [delAccessQ]⟩
  else
    let db1 := { db with groupaccess := db.groupaccess.filter (fun r => r.1 != gid) }
    match gaLoop gid aclsL comms 1 faults db1 with
    | (.committed db2, tr) => ⟨.ok, db2, delAccessQ :: tr⟩
    | (.txfail, tr) => ⟨.dbfail, db, delAccessQ :: tr⟩
    | (.txpanic, tr) => ⟨.panicked, db, delAccessQ :: tr⟩

/-- ruleEditHandler from ui.go: the rule ID comes from the route with no
validation and is used directly in the UPDATE statement. -/
def ruleEditHandler (rid typ value action comment : String) (faults : Nat → Bool)
    (db : DB) : HOut :=
  if faults 0 then ⟨.dbfail, db, [updRulesQ]⟩
  else
    ⟨.ok,
      { db with
        rules :=
          db.rules.map (fun r =>
            if r.1 == rid then (r.1, typ, value, action, comment) else r) },
      [updRulesQ]⟩

/-- aclMoveHandler from ui.go: every rule ID is validated, the
destination ACL ID is not, and the UPDATE re-targets every listed
aclrules row. -/
def aclMoveHandler (dst : String) (rulesL : List String) (faults : Nat → Bool)
    (db : DB) : HOut :=
  if rulesL.any (fun r => !(isUUID r)) then ⟨.invalid, db, []⟩
  else if faults 0 then ⟨.dbfail, db, [updAclrulesQ]⟩
  else
    ⟨.ok,
      { db with
        aclrules :=
          db.aclrules.map (fun ar => if rulesL.contains ar.2 then (dst, ar.2) else ar) },
      [updAclrulesQ]⟩

/-- ruleDeleteHandler from ui.go: every rule ID is validated before any
query; then one transaction deletes the aclrules links of the listed
rules and afterwards the rule rows themselves. -/
def ruleDeleteHandler (rulesL : List String) (faults : Nat → Bool) (db : DB) : HOut :=
  if rulesL.any (fun r => !(isUUID r)) then ⟨.invalid, db, []⟩
  else if faults 0 then ⟨.dbfail, db, [delAclrulesQ]⟩
  else if faults 1 then ⟨.dbfail, db, [delAclrulesQ, delRulesQ]⟩
  else
    ⟨.ok,
      { db with
        aclrules := db.aclrules.filter (fun ar => !(rulesL.contains ar.2)),
        rules := db.rules.filter (fun r => !(rulesL.contains r.1)) },
      [delAclrulesQ, delRulesQ]⟩

/-- sourceDeleteHandler from ui.go: assert the source ID (panicking when
malformed), then DELETE the source row; under active foreign keys the
delete is rejected exactly when the row exists and some member row still
references it, in which case the handler counts the referencing rows and
reports them, leaving the store unchanged. -/
def sourceDeleteHandler (sid : String) (db : DB) : HOut :=
  if !(isUUID sid) then ⟨.panicked, db, []⟩
  else
    let blockers := db.members.filter (fun m => m.2.1 == sid)
    if db.sources.any (fun s => s.1 == sid) && !blockers.isEmpty then
      ⟨.blocked blockers.length, db, [delSourcesQ, countMembersQ]⟩
    else
      ⟨.ok, { db with sources := db.sources.filter (fun s => s.1 != sid) }, [delSourcesQ]⟩

/-- aclDeleteHandler from ui.go: same shape as the source delete, with
aclrules rows as the blocking references. -/
def aclDeleteHandler (id : String) (db : DB) : HOut :=
  if !(isUUID id) then ⟨.panicked, db, []⟩
  else
    let blockers := db.aclrules.filter (fun r => r.1 == id)
    if db.acls.any (fun a => a.1 == id) && !blockers.isEmpty then
      ⟨.blocked blockers.length, db, [delAclsQ, countAclrulesQ]⟩
    else
      ⟨.ok, { db with acls := db.acls.filter (fun a => a.1 != id) }, [delAclsQ]⟩

/-- Last-written-wins lookup, modelling insertion of rows into a Go map
in row order. -/
def mapGet : List (String × String) → String → Option String
  | [], _ => none
  | (k, v) :: rest, q =>
    match mapGet rest q with
    | some r => some r
    | none => if q = k then some v else none

/-- getGroupSources from ui.go: the member rows of a group, keyed by
source ID with the comment as value. -/
def getGroupSources (db : DB) (g : String) (s : String) : Option String :=
  mapGet ((db.members.filter (fun r => r.1 == g)).map (fun r => (r.2.1, r.2.2))) s

/-! Lemmas about the canonicalizer: a string starting with a dot is
never an IP literal, so the output of a successful suffix reduction is a
fixed point of host2domain. -/

theorem hexGroupOk_dot (t : List Char) : hexGroupOk ('.' :: t) = false := by
  simp [hexGroupOk, List.all_cons, show hexDigit '.' = false from rfl]

theorem ipv4Chars_dot (t : List Char) : ipv4Chars ('.' :: t) = false := by
  simp [ipv4Chars, splitOnChar, v4FieldOk]

theorem ipv6Chars_dot (t : List Char) : ipv6Chars ('.' :: t) = false := by
  by_cases hdc : hasDC ('.' :: t)
  · cases t with
    | nil => simp [hasDC] at hdc
    | cons b rest =>
      obtain ⟨g, r, hg⟩ := splitOnChar_cons_ne ':' '.' (splitDC (b :: rest)).1 (by decide)
      simp [ipv6Chars, hdc, splitDC, partsOf, hg, hexGroupsCount, hexGroupOk_dot]
  · obtain ⟨g, r, hg⟩ := splitOnChar_cons_ne ':' '.' t (by decide)
    simp only [ipv6Chars, hdc, if_neg, Bool.false_eq_true, hg]
    cases r with
    | nil => simp [groupsCount, hexGroupOk_dot, ipv4Chars_dot]
    | cons x xs => simp [groupsCount, hexGroupOk_dot]

theorem isIPChars_dot (t : List Char) : isIPChars ('.' :: t) = false := by
  simp [isIPChars, ipv4Chars_dot, ipv6Chars_dot]

theorem shpChars_dot (t : List Char) (hst prt : List Char)
    (h : shpChars ('.' :: t) = some (hst, prt)) : ∃ u, hst = '.' :: u := by
  obtain ⟨g, r, hg⟩ := splitOnChar_cons_ne ':' '.' t (by decide)
  simp only [shpChars, List.head?_cons, Option.some.injEq,
    show (('.' : Char) = '[') = False from by simp, if_false, hg] at h
  by_cases hc : ('.' :: t).contains '[' || ('.' :: t).contains ']'
  · rw [if_pos hc] at h; exact absurd h (by simp)
  · rw [if_neg hc] at h
    cases r with
    | nil => exact absurd h (by simp)
    | cons p rest =>
      cases rest with
      | nil => simp at h; exact ⟨g, h.1.symm⟩
      | cons x xs => exact absurd h (by simp)

theorem h2dc_dot (r : List Char) : host2domainChars ('.' :: r) = '.' :: r := by
  have hip := isIPChars_dot r
  rcases hsp : shpChars ('.' :: r) with _ | ⟨hst, prt⟩
  · simp [host2domainChars, hip, hsp, suffixReduce, etldChars]
  · obtain ⟨u, hu⟩ := shpChars_dot r hst prt hsp
    subst hu
    simp [host2domainChars, hip, hsp, isIPChars_dot, suffixReduce, etldChars]

theorem h2dc_idem (l : List Char) :
    host2domainChars (host2domainChars l) = host2domainChars l := by
  by_cases hip : isIPChars l
  · simp [host2domainChars, hip]
  · rcases hsp : shpChars l with _ | ⟨hst, prt⟩
    · rcases het : etldChars l with _ | r
      · simp [host2domainChars, hip, hsp, suffixReduce, het]
      · have h1 : host2domainChars l = '.' :: r := by
          simp [host2domainChars, hip, hsp, suffixReduce, het]
        rw [h1, h2dc_dot]
    · by_cases hih : isIPChars hst
      · have h1 : host2domainChars l = hst := by simp [host2domainChars, hip, hsp, hih]
        rw [h1]; simp [host2domainChars, hih]
      · rcases het : etldChars l with _ | r
        · simp [host2domainChars, hip, hsp, hih, suffixReduce, het]
        · have h1 : host2domainChars l = '.' :: r := by
            simp [host2domainChars, hip, hsp, hih, suffixReduce, het]
          rw [h1, h2dc_dot]

/-- C6: every input that parses as an IPv4 or IPv6 literal is returned
unchanged by domain canonicalization; for a host:port whose host part is
an IP literal the IP alone is returned, the port being discarded; and
canonicalization returns a string for every input, never failing. -/
theorem canon_ip_unchanged (h : String) :
    (isIPChars h.data = true → host2domain h = h)
    ∧ (∀ hst prt, isIPChars h.data = false → shpChars h.data = some (hst, prt) →
        isIPChars hst = true → host2domain h = String.mk hst)
    ∧ (∃ s, host2domain h = s) := by
  refine ⟨?_, ?_, ⟨_, rfl⟩⟩
  · intro hip
    show String.mk (host2domainChars h.data) = h
    rw [host2domainChars, if_pos hip]
  · intro hst prt hip hsp hih
    show String.mk (host2domainChars h.data) = String.mk hst
    simp [host2domainChars, hip, hsp, hih]

theorem canon_ip_unchanged_w :
    host2domain "1.2.3.4" = "1.2.3.4" ∧ host2domain "[::1]:8080" = "::1" := by
  refine ⟨(canon_ip_unchanged "1.2.3.4").1 (by decide), ?_⟩
  exact (canon_ip_unchanged "[::1]:8080").2.1 "::1".data "8080".data
    (by decide) (by decide) (by decide)

/-- C7: for a hostname (no host:port split applies) whose registrable
domain is found under a known public suffix, canonicalization returns the
registrable domain prefixed with a single leading dot; and
canonicalization is idempotent on every input. -/
theorem canon_suffix_idempotent (h : String) (r : List Char)
    (hip : isIPChars h.data = false) (hsp : shpChars h.data = none)
    (het : etldChars h.data = some r) :
    host2domain h = String.mk ('.' :: r)
    ∧ ∀ x : String, host2domain (host2domain x) = host2domain x := by
  constructor
  · show String.mk (host2domainChars h.data) = _
    simp [host2domainChars, hip, hsp, suffixReduce, het]
  · intro x
    show String.mk (host2domainChars (String.mk (host2domainChars x.data)).data) = _
    rw [show (String.mk (host2domainChars x.data)).data = host2domainChars x.data from rfl,
      h2dc_idem]
    rfl

theorem canon_suffix_idempotent_w :
    host2domain "example.co.uk" = ".example.co.uk"
    ∧ host2domain (host2domain "www.bbc.co.uk") = host2domain "www.bbc.co.uk" := by
  have h := canon_suffix_idempotent "example.co.uk" "example.co.uk".data
    (by decide) (by decide) (by decide)
  exact ⟨h.1, h.2 "www.bbc.co.uk"⟩

/-- C8, counterexample: the line whose epoch field is a lone dot matches
the log pattern, yet the parser returns neither skip, nor a
malformed-line error carrying the line, nor an entry — it returns an
epoch-parse error carrying only the epoch token, a fourth outcome the
claim does not admit. -/
theorem parse_epoch_counterexample :
    parseLogEntry ". 1 c d 2 GET u - p t" = .epochErr "."
    ∧ parseLogEntry ". 1 c d 2 GET u - p t" ≠ .skip
    ∧ parseLogEntry ". 1 c d 2 GET u - p t" ≠ .malformed ". 1 c d 2 GET u - p t" := by
  exact ⟨by decide, by decide, by decide⟩

/-- C8, amended: the parser returns exactly one of four outcomes — skip
for the empty line; a malformed-line error carrying the line for a
non-empty line the pattern does not match; an epoch-parse error carrying
the epoch token for a matching line whose epoch field is not a parseable
number; and otherwise a structured entry with every field populated from
the captures, never a partial entry. -/
theorem parse_classification_amended (l : String) :
    (l = "" → parseLogEntry l = .skip)
    ∧ (l ≠ "" → findMatch l.data = none → parseLogEntry l = .malformed l)
    ∧ (∀ caps, l ≠ "" → findMatch l.data = some caps → parseEpoch caps.time = none →
        parseLogEntry l = .epochErr (String.mk caps.time))
    ∧ (∀ caps ts, l ≠ "" → findMatch l.data = some caps → parseEpoch caps.time = some ts →
        parseLogEntry l =
          .entry ⟨ts, String.mk caps.client, String.mk caps.method,
            String.mk (host2domainChars (hostPath caps.target).1),
            String.mk (hostPath caps.target).1, String.mk (hostPath caps.target).2,
            String.mk caps.target⟩) := by
  refine ⟨?_, ?_, ?_, ?_⟩
  · intro he; simp [parseLogEntry, he]
  · intro hne hm; simp [parseLogEntry, hne, hm]
  · intro caps hne hm hep; simp [parseLogEntry, hne, hm, hep]
  · intro caps ts hne hm hep; simp [parseLogEntry, hne, hm, hep]

theorem parse_classification_amended_w :
    parseLogEntry "" = .skip ∧ parseLogEntry "q" = .malformed "q" := by
  exact ⟨(parse_classification_amended "").1 rfl,
    (parse_classification_amended "q").2.1 (by decide) (by decide)⟩

/-- C9: the documented TCP_MISS example parses to an entry with canonical
domain .example.co.uk, path /a/b and method GET, and the documented
CONNECT example parses to an entry whose raw host and canonical domain
are both the IP 93.184.216.34 with an empty path. -/
theorem parse_examples :
    parseLogEntry "1700000000.123    50 10.0.0.5 TCP_MISS/200 512 GET http://example.co.uk/a/b - HIER_DIRECT/1.2.3.4 text/html"
      = .entry ⟨1700000000, "10.0.0.5", "GET", ".example.co.uk", "example.co.uk", "/a/b",
          "http://example.co.uk/a/b"⟩
    ∧ parseLogEntry "1700000000.000 10 10.0.0.5 TCP_TUNNEL/200 0 CONNECT 93.184.216.34:443 - HIER_DIRECT/93.184.216.34 -"
      = .entry ⟨1700000000, "10.0.0.5", "CONNECT", "93.184.216.34", "93.184.216.34", "",
          "93.184.216.34:443"⟩ := by
  exact ⟨by decide, by decide⟩

/-- C5: the reversal loop loses the middle element of an odd-length line
list — reversing the three lines a, b, c yields c, empty, a instead of
the exact reversal c, b, a — so the tail pipeline silently drops the
middle log line of an odd-length window, as the three-line tail run
shows: only the entries of the third and first lines survive. -/
theorem reverse_middle_lost :
    reverse ["a", "b", "c"] = ["c", "", "a"]
    ∧ reverse ["a", "b", "c"] ≠ ["a", "b", "c"].reverse
    ∧ (tailLog "1 1 c1 x 2 GET u - p t\n2 1 c2 x 2 GET u - p t\n3 1 c3 x 2 GET u - p t").map
        (fun e => e.Client) = ["c3", "c1"] := by
  exact ⟨by decide, by decide, by decide⟩

/-! Lemmas about the store model: last-wins map lookup, the shape of a
committed member-insert loop, and panic propagation on short comment
lists. -/

theorem mapGet_nodup (l : List (String × String)) (hl : (l.map Prod.fst).Nodup) :
    ∀ q v, mapGet l q = some v ↔ (q, v) ∈ l := by
  induction l with
  | nil => intro q v; simp [mapGet]
  | cons kv rest ih =>
    obtain ⟨k, w⟩ := kv
    simp only [List.map_cons, List.nodup_cons] at hl
    obtain ⟨hk, hrest⟩ := hl
    intro q v
    constructor
    · intro h
      simp only [mapGet] at h
      rcases hr : mapGet rest q with _ | r
      · rw [hr] at h
        by_cases hq : q = k
        · rw [if_pos hq] at h
          simp only [Option.some.injEq] at h
          subst hq; subst h
          exact List.mem_cons_self _ _
        · rw [if_neg hq] at h
          exact absurd h (by simp)
      · rw [hr] at h
        simp only [Option.some.injEq] at h
        subst h
        exact List.mem_cons_of_mem _ ((ih hrest q r).mp hr)
    · intro h
      rcases List.mem_cons.mp h with h1 | h1
      · injection h1 with hq hv
        subst hq; subst hv
        rcases hr : mapGet rest q with _ | r
        · simp [mapGet, hr]
        · exact absurd ((ih hrest q r).mp hr)
            (fun hm => hk (List.mem_map.mpr ⟨(q, r), hm, rfl⟩))
      · simp [mapGet, (ih hrest q v).mpr h1]

theorem map_pair_id (L : List (String × String)) : L.map (fun p => (p.1, p.2)) = L := by
  induction L with
  | nil => rfl
  | cons a t ih => simp [ih]

theorem memLoop_committed (gid : String) (srcs : List String) :
    ∀ (comms : List String) (n : Nat) (faults : Nat → Bool) (db db2 : DB) (tr : List String),
      memLoop gid srcs comms n faults db = (.committed db2, tr) →
      db2 = { db with
        members := db.members ++ (srcs.zip comms).map (fun p => (gid, p.1, p.2)) }
      ∧ srcs.length ≤ comms.length := by
  induction srcs with
  | nil =>
    intro comms n faults db db2 tr h
    simp only [memLoop, Prod.mk.injEq, TxStep.committed.injEq] at h
    refine ⟨?_, by simp⟩
    rw [← h.1]
    simp
  | cons s srest ih =>
    intro comms n faults db db2 tr h
    cases comms with
    | nil => simp [memLoop] at h
    | cons c crest =>
      simp only [memLoop] at h
      by_cases hf : faults n
      · simp [hf] at h
      · rw [if_neg hf] at h
        rcases hml : memLoop gid srest crest (n + 1) faults
            { db with members := db.members ++ [(gid, s, c)] } with ⟨step, tr2⟩
        rw [hml] at h
        simp only [Prod.mk.injEq] at h
        obtain ⟨h1, h2⟩ := h
        obtain ⟨ha, hb⟩ := ih crest (n + 1) faults _ db2 tr2 (by rw [hml, h1])
        refine ⟨?_, by simpa using hb⟩
        rw [ha]
        simp [List.append_assoc]

theorem memLoop_panics (gid : String) (srcs : List String) :
    ∀ (comms : List String) (n : Nat) (db : DB), comms.length < srcs.length →
      (memLoop gid srcs comms n noFaults db).1 = .txpanic := by
  induction srcs with
  | nil => intro comms n db h; simp at h
  | cons s srest ih =>
    intro comms n db h
    cases comms with
    | nil => rfl
    | cons c crest =>
      simp only [memLoop, noFaults, Bool.false_eq_true, if_false]
      exact ih crest (n + 1) _ (by simpa using h)

theorem gaLoop_noFaults (gid : String) (aclsL : List String) :
    ∀ (comms : List String) (n : Nat) (db : DB), aclsL.length ≤ comms.length →
      ∃ db2 tr, gaLoop gid aclsL comms n noFaults db = (.committed db2, tr) := by
  induction aclsL with
  | nil => intro comms n db h; exact ⟨db, [], rfl⟩
  | cons a arest ih =>
    intro comms n db h
    cases comms with
    | nil => simp at h
    | cons c crest =>
      obtain ⟨db2, tr, htr⟩ := ih crest (n + 1)
        { db with groupaccess := db.groupaccess ++ [(gid, a, c)] } (by simpa using h)
      refine ⟨db2, insAccessQ :: tr, ?_⟩
      simp [gaLoop, noFaults, htr]

theorem isEmpty_false_of_ne_nil {α : Type} {l : List α} (h : l ≠ []) : l.isEmpty = false := by
  cases l with
  | nil => exact absurd rfl h
  | cons a t => rfl

/-- Foreign-key invariant of the store: every aclrules row names an
existing ACL. -/
def fkAclrules (db : DB) : Prop := ∀ r ∈ db.aclrules, ∃ a ∈ db.acls, a.1 = r.1

/-- Foreign-key invariant of the store: every member row names an
existing source. -/
def fkMembers (db : DB) : Prop := ∀ m ∈ db.members, ∃ s ∈ db.sources, s.1 = m.2.1

/-- C1: a member replacement over distinct source IDs that succeeds
leaves the group with exactly the submitted pairs — reading the group's
members finds a pair precisely when it was submitted, with no leftover
rows — and whenever any step of the call fails (validation, panic, or a
rejected statement under any fault schedule), the visible store is the
prior one unchanged. -/
theorem members_replace_readback (gid : String) (srcs comms : List String)
    (faults : Nat → Bool) (db : DB) (hnd : srcs.Nodup) :
    (∀ db2 tr, membersmembers gid srcs comms faults db = ⟨.ok, db2, tr⟩ →
       ∀ s c, getGroupSources db2 gid s = some c ↔ (s, c) ∈ srcs.zip comms)
    ∧ (∀ res db2 tr, membersmembers gid srcs comms faults db = ⟨res, db2, tr⟩ →
       res ≠ .ok → db2 = db) := by
  constructor
  · intro db2 tr h s c
    simp only [membersmembers] at h
    split at h
    · simp at h
    split at h
    · simp at h
    split at h
    · simp at h
    split at h
    · rename_i db3 tr2 heq
      simp only [HOut.mk.injEq, true_and] at h
      obtain ⟨hdb, htr⟩ := h
      rw [← hdb]
      obtain ⟨ha, hb⟩ := memLoop_committed gid srcs comms 1 faults _ db3 tr2 heq
      rw [ha]
      unfold getGroupSources
      simp only [List.filter_append]
      have e1 : (db.members.filter (fun r => r.1 != gid)).filter (fun r => r.1 == gid)
          = [] := by
        rw [List.filter_eq_nil_iff]
        intro a ha2
        have h2 := (List.mem_filter.mp ha2).2
        simp only [bne_iff_ne, ne_eq] at h2
        simp [h2]
      have e2 : ((srcs.zip comms).map
            (fun p => ((gid, p.1, p.2) : String × String × String))).filter
            (fun r => r.1 == gid)
          = (srcs.zip comms).map (fun p => (gid, p.1, p.2)) := by
        rw [List.filter_eq_self]
        intro a ha2
        obtain ⟨p, hp, hq⟩ := List.mem_map.mp ha2
        rw [← hq]
        simp
      rw [e1, e2, List.nil_append, List.map_map]
      have e3 : List.map ((fun (r : String × String × String) => (r.2.1, r.2.2)) ∘
            (fun p => ((gid, p.1, p.2) : String × String × String))) (srcs.zip comms)
          = srcs.zip comms := map_pair_id _
      rw [e3]
      exact mapGet_nodup _ (by rw [List.map_fst_zip srcs comms hb]; exact hnd) s c
    · simp at h
    · simp at h
  · intro res db2 tr h hres
    simp only [membersmembers] at h
    split at h
    · simp only [HOut.mk.injEq] at h; exact h.2.1.symm
    split at h
    · simp only [HOut.mk.injEq] at h; exact h.2.1.symm
    split at h
    · simp only [HOut.mk.injEq] at h; exact h.2.1.symm
    split at h
    · simp only [HOut.mk.injEq] at h; exact absurd h.1.symm hres
    · simp only [HOut.mk.injEq] at h; exact h.2.1.symm
    · simp only [HOut.mk.injEq] at h; exact h.2.1.symm

/-- C2: under the foreign-key invariants, deleting an ACL with zero
linked rules succeeds, while deleting an ACL with n linked rules (n
positive) is blocked with the exact count n and the store unchanged;
deleting a source behaves the same way with the count of member rows
still referencing it. -/
theorem delete_blocked_counts (db : DB) (id sid : String)
    (hu : isUUID id = true) (hus : isUUID sid = true)
    (hfk : fkAclrules db) (hfkm : fkMembers db) :
    (db.aclrules.filter (fun r => r.1 == id) = [] →
       aclDeleteHandler id db
         = ⟨.ok, { db with acls := db.acls.filter (fun a => a.1 != id) }, [delAclsQ]⟩)
    ∧ (∀ n, (db.aclrules.filter (fun r => r.1 == id)).length = n → 0 < n →
       aclDeleteHandler id db = ⟨.blocked n, db, [delAclsQ, countAclrulesQ]⟩)
    ∧ (db.members.filter (fun m => m.2.1 == sid) = [] →
       sourceDeleteHandler sid db
         = ⟨.ok, { db with sources := db.sources.filter (fun s => s.1 != sid) },
             [delSourcesQ]⟩)
    ∧ (∀ n, (db.members.filter (fun m => m.2.1 == sid)).length = n → 0 < n →
       sourceDeleteHandler sid db = ⟨.blocked n, db, [delSourcesQ, countMembersQ]⟩) := by
  refine ⟨?_, ?_, ?_, ?_⟩
  · intro hempty
    simp [aclDeleteHandler, hu, hempty]
  · intro n hlen hpos
    have hne : db.aclrules.filter (fun r => r.1 == id) ≠ [] := by
      intro he; rw [he] at hlen; simp at hlen; omega
    obtain ⟨r0, hr0⟩ := List.exists_mem_of_ne_nil _ hne
    have hr0m := List.mem_filter.mp hr0
    have hid : r0.1 = id := by simpa using hr0m.2
    obtain ⟨a0, ha0, ha0id⟩ := hfk r0 hr0m.1
    have hany : db.acls.any (fun a => a.1 == id) = true :=
      List.any_eq_true.mpr ⟨a0, ha0, by simp [ha0id, hid]⟩
    simp [aclDeleteHandler, hu, hany, isEmpty_false_of_ne_nil hne, hlen]
  · intro hempty
    simp [sourceDeleteHandler, hus, hempty]
  · intro n hlen hpos
    have hne : db.members.filter (fun m => m.2.1 == sid) ≠ [] := by
      intro he; rw [he] at hlen; simp at hlen; omega
    obtain ⟨m0, hm0⟩ := List.exists_mem_of_ne_nil _ hne
    have hm0m := List.mem_filter.mp hm0
    have hid : m0.2.1 = sid := by simpa using hm0m.2
    obtain ⟨s0, hs0, hs0id⟩ := hfkm m0 hm0m.1
    have hany : db.sources.any (fun s => s.1 == sid) = true :=
      List.any_eq_true.mpr ⟨s0, hs0, by simp [hs0id, hid]⟩
    simp [sourceDeleteHandler, hus, hany, isEmpty_false_of_ne_nil hne, hlen]

/-- C10: deleting a well-formed ACL or source ID that names no stored
row reports plain success with the store unchanged — absence of the
target is indistinguishable from a successful delete. -/
theorem delete_missing_reports_ok (db : DB) (id sid : String)
    (hu : isUUID id = true) (hus : isUUID sid = true)
    (hno : db.acls.all (fun a => a.1 != id) = true)
    (hnos : db.sources.all (fun s => s.1 != sid) = true) :
    aclDeleteHandler id db = ⟨.ok, db, [delAclsQ]⟩
    ∧ sourceDeleteHandler sid db = ⟨.ok, db, [delSourcesQ]⟩ := by
  constructor
  · have hany : db.acls.any (fun a => a.1 == id) = false := by
      rw [List.any_eq_false]
      intro a ha
      simpa using List.all_eq_true.mp hno a ha
    have hfix : db.acls.filter (fun a => a.1 != id) = db.acls :=
      List.filter_eq_self.mpr (List.all_eq_true.mp hno)
    simp [aclDeleteHandler, hu, hany, hfix]
  · have hany : db.sources.any (fun s => s.1 == sid) = false := by
      rw [List.any_eq_false]
      intro s hs
      simpa using List.all_eq_true.mp hnos s hs
    have hfix : db.sources.filter (fun s => s.1 != sid) = db.sources :=
      List.filter_eq_self.mpr (List.all_eq_true.mp hnos)
    simp [sourceDeleteHandler, hus, hany, hfix]

/-- C3, counterexample: the rule-edit handler accepts a malformed rule
ID and still issues its UPDATE query, returning plain success rather
than a validation failure. -/
theorem rule_edit_unvalidated_counterexample :
    ruleEditHandler "not-a-uuid" "domain" "x" "allow" "c" noFaults
        ⟨[], [], [], [], [], [], []⟩
      = ⟨.ok, ⟨[], [], [], [], [], [], []⟩, [updRulesQ]⟩
    ∧ isUUID "not-a-uuid" = false := by
  exact ⟨by decide, by decide⟩

/-- C3, amended: the batch identifier lists — rules to move, rules to
delete, member source IDs, grant ACL IDs — are validated against the
UUID pattern and any malformed entry rejects the call before a query is
issued; but the rule-edit target ID, the move destination ACL ID and
the grant-update group ID reach the database unvalidated (those
handlers issue their statements and succeed for any identifier,
malformed ones included), and the source and ACL delete handlers reject
malformed path IDs by panicking rather than by a validation failure. -/
theorem uuid_validation_amended (db : DB) (dst rid t v a c sid aid gid2 : String)
    (rulesMv rulesDel srcsL aclsL comsL : List String) (faults : Nat → Bool) :
    (rulesMv.any (fun x => !(isUUID x)) = true →
       aclMoveHandler dst rulesMv faults db = ⟨.invalid, db, []⟩)
    ∧ (rulesDel.any (fun x => !(isUUID x)) = true →
       ruleDeleteHandler rulesDel faults db = ⟨.invalid, db, []⟩)
    ∧ (isUUID gid2 = true → srcsL.any (fun x => !(isUUID x)) = true →
       membersmembers gid2 srcsL comsL faults db = ⟨.invalid, db, []⟩)
    ∧ (aclsL.any (fun x => !(isUUID x)) = true →
       accessUpdate gid2 aclsL comsL faults db = ⟨.invalid, db, []⟩)
    ∧ (ruleEditHandler rid t v a c noFaults db).res = .ok
    ∧ (ruleEditHandler rid t v a c noFaults db).trace = [updRulesQ]
    ∧ (rulesMv.any (fun x => !(isUUID x)) = false →
       (aclMoveHandler dst rulesMv noFaults db).res = .ok
       ∧ (aclMoveHandler dst rulesMv noFaults db).trace = [updAclrulesQ])
    ∧ (aclsL.any (fun x => !(isUUID x)) = false → comsL.length = aclsL.length →
       (accessUpdate gid2 aclsL comsL noFaults db).res = .ok
       ∧ (accessUpdate gid2 aclsL comsL noFaults db).trace.head? = some delAccessQ)
    ∧ (isUUID sid = false → sourceDeleteHandler sid db = ⟨.panicked, db, []⟩)
    ∧ (isUUID aid = false → aclDeleteHandler aid db = ⟨.panicked, db, []⟩) := by
  refine ⟨?_, ?_, ?_, ?_, ?_, ?_, ?_, ?_, ?_, ?_⟩
  · intro hbad; simp [aclMoveHandler, hbad]
  · intro hbad; simp [ruleDeleteHandler, hbad]
  · intro hg hbad; simp [membersmembers, hg, hbad]
  · intro hbad; simp [accessUpdate, hbad]
  · simp [ruleEditHandler, noFaults]
  · simp [ruleEditHandler, noFaults]
  · intro hok
    constructor <;> simp [aclMoveHandler, hok, noFaults]
  · intro hok hlen
    obtain ⟨db2, tr, htr⟩ := gaLoop_noFaults gid2 aclsL comsL 1
      { db with groupaccess := db.groupaccess.filter (fun r => r.1 != gid2) }
      (le_of_eq hlen.symm)
    constructor <;> simp [accessUpdate, hok, hlen, noFaults, htr]
  · intro hbad; simp [sourceDeleteHandler, hbad]
  · intro hbad; simp [aclDeleteHandler, hbad]

/-- C4, counterexample: a member replacement with one source ID and no
comments is not rejected as a validation error — it enters the
transaction, issues the member delete, and panics; the grant-update
handler on the same shape of input is rejected up front. -/
theorem members_mismatch_counterexample :
    membersmembers "aaaaaaaa-aaaa-aaaa-aaaa-aaaaaaaaaaaa"
        ["bbbbbbbb-bbbb-bbbb-bbbb-bbbbbbbbbbbb"] [] noFaults
        ⟨[], [], [("aaaaaaaa-aaaa-aaaa-aaaa-aaaaaaaaaaaa", "dddddddd-dddd-dddd-dddd-dddddddddddd", "old")], [], [], [], []⟩
      = ⟨.panicked,
          ⟨[], [], [("aaaaaaaa-aaaa-aaaa-aaaa-aaaaaaaaaaaa", "dddddddd-dddd-dddd-dddd-dddddddddddd", "old")], [], [], [], []⟩,
          [delMembersQ]⟩
    ∧ (membersmembers "aaaaaaaa-aaaa-aaaa-aaaa-aaaaaaaaaaaa"
        ["bbbbbbbb-bbbb-bbbb-bbbb-bbbbbbbbbbbb"] [] noFaults
        ⟨[], [], [("aaaaaaaa-aaaa-aaaa-aaaa-aaaaaaaaaaaa", "dddddddd-dddd-dddd-dddd-dddddddddddd", "old")], [], [], [], []⟩).res
      ≠ .invalid := by
  exact ⟨by decide, by decide⟩

/-- C4, amended: a grant replacement with unequal list lengths is
rejected as a validation error before any statement is issued; a member
replacement with fewer comments than source IDs performs no length
check — it begins the transaction with the member delete and then
panics on the missing comment — but the rollback leaves the visible
store unchanged. -/
theorem length_check_amended (gid : String) (idsA comsA idsM comsM : List String)
    (faults : Nat → Bool) (db : DB)
    (hA : comsA.length ≠ idsA.length)
    (hvA : idsA.any (fun x => !(isUUID x)) = false)
    (hg : isUUID gid = true)
    (hvM : idsM.any (fun x => !(isUUID x)) = false)
    (hM : comsM.length < idsM.length) :
    accessUpdate gid idsA comsA faults db = ⟨.invalid, db, []⟩
    ∧ (membersmembers gid idsM comsM noFaults db).res = .panicked
    ∧ (membersmembers gid idsM comsM noFaults db).db = db
    ∧ (membersmembers gid idsM comsM noFaults db).trace.head? = some delMembersQ := by
  rcases hml : memLoop gid idsM comsM 1 noFaults
      { db with members := db.members.filter (fun r => r.1 != gid) } with ⟨step, tr2⟩
  have hstep : step = .txpanic := by
    have hp := memLoop_panics gid idsM comsM 1
      { db with members := db.members.filter (fun r => r.1 != gid) } hM
    rw [hml] at hp
    exact hp
  subst hstep
  have h1 : membersmembers gid idsM comsM noFaults db
      = ⟨.panicked, db, delMembersQ :: tr2⟩ := by
    simp [membersmembers, hg, hvM, noFaults, hml]
  refine ⟨by simp [accessUpdate, hvA, hA], by rw [h1], by rw [h1], by rw [h1]; rfl⟩

/-! Concrete states and identifiers used by the witnesses. -/

def gW : String := "aaaaaaaa-aaaa-aaaa-aaaa-aaaaaaaaaaaa"
def sW1 : String := "bbbbbbbb-bbbb-bbbb-bbbb-bbbbbbbbbbbb"
def sW2 : String := "cccccccc-cccc-cccc-cccc-cccccccccccc"
def sWold : String := "dddddddd-dddd-dddd-dddd-dddddddddddd"
def aW : String := "eeeeeeee-eeee-eeee-eeee-eeeeeeeeeeee"
def rW1 : String := "ffffffff-ffff-ffff-ffff-ffffffffffff"
def rW2 : String := "99999999-9999-9999-9999-999999999999"
def dbW : DB := ⟨[], [(gW, "grp")], [(gW, sWold, "old")], [], [], [], []⟩
def dbEmpty : DB := ⟨[], [], [], [], [], [], []⟩
def dbRef : DB := ⟨[(sW1, "host", "sc")], [(gW, "grp")], [(gW, sW1, "mc")],
  [(aW, "acl")], [], [(aW, rW1), (aW, rW2)], []⟩

theorem members_replace_readback_w :
    getGroupSources ⟨[], [(gW, "grp")], [(gW, sW1, "c1"), (gW, sW2, "c2")], [], [], [], []⟩
      gW sW1 = some "c1" := by
  exact ((members_replace_readback gW [sW1, sW2] ["c1", "c2"] noFaults dbW (by decide)).1
    ⟨[], [(gW, "grp")], [(gW, sW1, "c1"), (gW, sW2, "c2")], [], [], [], []⟩
    [delMembersQ, insMembersQ, insMembersQ] (by decide) sW1 "c1").mpr (by decide)

theorem delete_blocked_counts_w :
    aclDeleteHandler aW dbRef = ⟨.blocked 2, dbRef, [delAclsQ, countAclrulesQ]⟩
    ∧ sourceDeleteHandler sW1 dbRef = ⟨.blocked 1, dbRef, [delSourcesQ, countMembersQ]⟩ := by
  have h := delete_blocked_counts dbRef aW sW1 (by decide) (by decide)
    (by unfold fkAclrules; decide) (by unfold fkMembers; decide)
  exact ⟨h.2.1 2 (by decide) (by decide), h.2.2.2 1 (by decide) (by decide)⟩

theorem delete_missing_reports_ok_w :
    aclDeleteHandler gW dbRef = ⟨.ok, dbRef, [delAclsQ]⟩
    ∧ sourceDeleteHandler gW dbRef = ⟨.ok, dbRef, [delSourcesQ]⟩ :=
  delete_missing_reports_ok dbRef gW gW (by decide) (by decide) (by decide) (by decide)

theorem uuid_validation_amended_w :
    aclMoveHandler gW ["zzz"] noFaults dbEmpty = ⟨.invalid, dbEmpty, []⟩
    ∧ ruleDeleteHandler ["zzz"] noFaults dbEmpty = ⟨.invalid, dbEmpty, []⟩
    ∧ membersmembers gW ["zzz"] [] noFaults dbEmpty = ⟨.invalid, dbEmpty, []⟩
    ∧ accessUpdate gW ["zzz"] [] noFaults dbEmpty = ⟨.invalid, dbEmpty, []⟩
    ∧ (aclMoveHandler "not-a-uuid" [rW1] noFaults dbEmpty).res = .ok
    ∧ (accessUpdate "not-a-uuid" [aW] ["cm"] noFaults dbEmpty).res = .ok
    ∧ sourceDeleteHandler "zzz" dbEmpty = ⟨.panicked, dbEmpty, []⟩
    ∧ aclDeleteHandler "zzz" dbEmpty = ⟨.panicked, dbEmpty, []⟩ := by
  have hA := uuid_validation_amended dbEmpty gW "r" "t" "v" "act" "cmt" "zzz" "zzz" gW
    ["zzz"] ["zzz"] ["zzz"] ["zzz"] [] noFaults
  have hB := uuid_validation_amended dbEmpty "not-a-uuid" "r" "t" "v" "act" "cmt" "zzz"
    "zzz" "not-a-uuid" [rW1] [] [] [aW] ["cm"] noFaults
  refine ⟨hA.1 (by decide), hA.2.1 (by decide), hA.2.2.1 (by decide) (by decide),
    hA.2.2.2.1 (by decide), (hB.2.2.2.2.2.2.1 (by decide)).1,
    (hB.2.2.2.2.2.2.2.1 (by decide) (by decide)).1,
    hA.2.2.2.2.2.2.2.2.1 (by decide), hA.2.2.2.2.2.2.2.2.2 (by decide)⟩

theorem length_check_amended_w :
    accessUpdate gW [sW1] [] noFaults dbW = ⟨.invalid, dbW, []⟩
    ∧ (membersmembers gW [sW1, sW2] ["only-one"] noFaults dbW).res = .panicked
    ∧ (membersmembers gW [sW1, sW2] ["only-one"] noFaults dbW).db = dbW := by
  have h := length_check_amended gW [sW1] [] [sW1, sW2] ["only-one"] noFaults dbW
    (by decide) (by decide) (by decide) (by decide) (by decide)
  exact ⟨h.1, h.2.1, h.2.2.1⟩

end Squidwarden
